import Mathlib

/-!
Shallow embedding of the `freqprobe` sampling/averaging engine
(`src/cpustat.rs`, `src/probe.rs`, `src/main.rs`) and proofs about it.

Machine integers: the Rust code computes with `u64`/`usize`.  We embed them
as `Nat` and apply `% 2^64` exactly where the Rust arithmetic wraps
(release-profile semantics for `+`/`-` on `u64`).

Floating point: `f64` values appearing in the code are embedded as `ℚ`
wrapped in `Option`, where `none` stands for a non-finite result (the NaN
produced by `0.0 / 0.0`, or an infinity).  The decimal literals the program
parses from `/proc/cpuinfo` value lines are modelled by an exact decimal
parser into `ℚ`; this coincides with `str::parse::<f64>` on plain decimal
literals whose value is exactly representable in binary floating point,
which covers every input exercised below.
-/

/-- The modulus `2^64` of Rust `u64` arithmetic. -/
def M64 : Nat := 2 ^ 64

/-- The value `usize::MAX` on the 64-bit targets the program runs on. -/
def USIZE_MAX : Nat := 2 ^ 64 - 1

/-- From `src/main.rs`: `const KILO: u64 = 1_000;`. -/
def KILO : Nat := 1000

/-- From `src/cpustat.rs`: the per-core running-average state.
`frequency_samples` embeds the `VecDeque<u64>` as a list whose head is the
front (oldest) element; `push_back` appends at the tail. -/
structure CpuStat where
  id : Nat
  window_size : Nat
  frequency_samples : List Nat
  sum : Nat
deriving Repr, DecidableEq

/-- From `src/cpustat.rs`, `CpuStat::new`: plain construction, no failure
path and no validation of `window_size`. -/
def CpuStat.new (id window_size : Nat) : CpuStat :=
  { id := id
  , window_size := window_size
  , frequency_samples := []
  , sum := 0 }

/-- From `src/cpustat.rs`, `CpuStat::add_sample`: when the deque is at
`window_size`, pop the front sample and subtract it from `sum`; then add the
new sample to `sum` and push it at the back.  `u64` subtraction and addition
wrap modulo `2^64`. -/
def CpuStat.add_sample (self : CpuStat) (sample : Nat) : CpuStat :=
  let self :=
    if self.frequency_samples.length = self.window_size then
      match self.frequency_samples with
      | v :: rest =>
          { self with
            frequency_samples := rest
          , sum := (self.sum + (M64 - v % M64)) % M64 }
      | [] => self
    else self
  { self with
    sum := (self.sum + sample) % M64
  , frequency_samples := self.frequency_samples ++ [sample] }

/-- Feeding a sequence of samples in order: one `add_sample` call per value. -/
def CpuStat.feed (self : CpuStat) (xs : List Nat) : CpuStat :=
  xs.foldl CpuStat.add_sample self

/-- Division of `f64` values, on the finite-or-not model of `f64`: dividing by zero
yields a non-finite value (`0.0 / 0.0` is NaN, `x / 0.0` an infinity),
embedded as `none`; otherwise the exact quotient. -/
def f64div (a b : ℚ) : Option ℚ :=
  if b = 0 then none else some (a / b)

/-- From `src/cpustat.rs`, `CpuStat::mean`:
`self.sum as f64 / self.frequency_samples.len() as f64`, with no emptiness
check.  On an empty deque this is `0.0 / 0.0`, i.e. NaN (`none`). -/
def CpuStat.mean (self : CpuStat) : Option ℚ :=
  f64div (self.sum : ℚ) (self.frequency_samples.length : ℚ)

/-- From `src/cpustat.rs`, `CpuStat::avg_mhz`: `self.mean() / 1_000_000.0`
(a NaN mean propagates). -/
def CpuStat.avg_mhz (self : CpuStat) : Option ℚ :=
  (self.mean).map (fun m => m / 1000000)

/-- From `src/main.rs` line 135 (sysfs monitor loop): the sample entering
`add_sample` is `read_sysfs_uint(path) * KILO`, a `u64` multiplication. -/
def sysfs_sample (raw : Nat) : Nat := (raw * KILO) % M64

/-- Rust `str::parse::<usize>`: an optional leading `+`, then one or more
ASCII digits, failing on overflow past `usize::MAX`. -/
def parseUsize (s : String) : Option Nat :=
  let cs := match s.data with
    | '+' :: rest => rest
    | cs => cs
  if cs = [] then none
  else if cs.all Char.isDigit then
    let v := cs.foldl (fun acc c => acc * 10 + (c.toNat - '0'.toNat)) 0
    if v ≤ USIZE_MAX then some v else none
  else none

/-- Digit-string value, used by the decimal parser. -/
def digitsVal (cs : List Char) : Nat :=
  cs.foldl (fun acc c => acc * 10 + (c.toNat - '0'.toNat)) 0

/-- An exactly-parsed nonnegative decimal literal `intPart.fracPart`
(`fracLen` fractional digits): the exact value a successful
`str::parse::<f64>` produces, kept in integer form. -/
structure Decimal where
  intPart : Nat
  fracPart : Nat
  fracLen : Nat
deriving Repr, DecidableEq

/-- The rational value of a parsed decimal literal. -/
def Decimal.toRat (d : Decimal) : ℚ :=
  (d.intPart : ℚ) + (d.fracPart : ℚ) / (10 ^ d.fracLen : ℚ)

/-- Rust `str::parse::<f64>` restricted to plain unsigned decimal literals
(optional leading `+`, digits, optional `.` and fractional digits, at least
one digit), the only shapes the probed resources produce.  The result is
the exact decimal value; this agrees with `f64` parsing whenever that value
is exactly representable in binary floating point, which covers every input
exercised below. -/
def parseDecimal (s : String) : Option Decimal :=
  let cs := match s.data with
    | '+' :: rest => rest
    | cs => cs
  let ip := cs.takeWhile (fun c => c ≠ '.')
  match cs.dropWhile (fun c => c ≠ '.') with
  | [] =>
      if ip ≠ [] ∧ ip.all Char.isDigit then some ⟨digitsVal ip, 0, 0⟩
      else none
  | '.' :: frac =>
      if ip.all Char.isDigit ∧ frac.all Char.isDigit
          ∧ (ip ≠ [] ∨ frac ≠ []) then
        some ⟨digitsVal ip, digitsVal frac, frac.length⟩
      else none
  | _ => none

/-- Rust `as u64` applied to a finite nonnegative `f64`: truncation toward
zero, saturating at the top of the `u64` range (and at `0` below). -/
def f64toU64 (q : ℚ) : Nat :=
  if q < 0 then 0 else min (M64 - 1) (Int.toNat ⌊q⌋)

/-- From `src/probe.rs` line 105: the raw sample stored for an aggregate
(procfs) reading, `(frequency_mhz * 1000.0) as u64`, computed exactly in
integer arithmetic; `procfs_sample_toRat` below proves it equal to the
truncation of the parsed rational value times 1000. -/
def procfs_sample (d : Decimal) : Nat :=
  min (M64 - 1) ((d.intPart * 10 ^ d.fracLen + d.fracPart) * 1000 / 10 ^ d.fracLen)

/-- Rust `str::strip_prefix`: `some` of the remainder when `p` is a prefix. -/
def chomp (p s : String) : Option String :=
  if s.data.take p.data.length = p.data then some (String.mk (s.data.drop p.data.length))
  else none

/-- Rust `str::trim_start`: drop leading whitespace. -/
def trimStart (s : String) : String :=
  String.mk (s.data.dropWhile Char.isWhitespace)

/-- The id announced by a `processor` marker line, when the line is a fully
well-formed marker (mirrors the marker branch of `parse_procfs_cpuinfo`). -/
def markerIdOf (line : String) : Option Nat :=
  (chomp "processor" line).bind fun r =>
    (chomp ":" (trimStart r)).bind fun r2 =>
      parseUsize (trimStart r2)

/-- Insertion into the embedded `BTreeMap<usize, u64>`: an association list
kept strictly sorted by key, overwriting an existing key. -/
def insertSorted (k v : Nat) : List (Nat × Nat) → List (Nat × Nat)
  | [] => [(k, v)]
  | (k', v') :: rest =>
    if k < k' then (k, v) :: (k', v') :: rest
    else if k = k' then (k, v) :: rest
    else (k', v') :: insertSorted k v rest

/-- From `src/probe.rs`, the line loop of `parse_procfs_cpuinfo`.
`cur` is the `current` variable; `acc` the `cpu_frequencies` map.
`none` models the `exit(1)` / `expect` abort paths. -/
def procfs_go (cpuset : List Nat) :
    List String → Option Nat → List (Nat × Nat) → Option (List (Nat × Nat))
  | [], _, acc => some acc
  | line :: rest, some id, acc =>
    match chomp "cpu MHz" line with
    | none => procfs_go cpuset rest (some id) acc
    | some r =>
      match chomp ":" (trimStart r) with
      | none => none
      | some r2 =>
        match parseDecimal (trimStart r2) with
        | none => none
        | some frequency_mhz =>
            procfs_go cpuset rest none
              (insertSorted id (procfs_sample frequency_mhz) acc)
  | line :: rest, none, acc =>
    match chomp "processor" line with
    | none => procfs_go cpuset rest none acc
    | some r =>
      match chomp ":" (trimStart r) with
      | none => none
      | some r2 =>
        match parseUsize (trimStart r2) with
        | none => none
        | some id =>
            procfs_go cpuset rest (if id ∈ cpuset then some id else none) acc

/-- From `src/probe.rs`, `parse_procfs_cpuinfo`: scan the resource's lines
with no marker pending and an empty map.  The tracked set is embedded as
the list of ids the `HashSet` holds (only membership is consulted). -/
def parse_procfs_cpuinfo (cpuset : List Nat) (lines : List String) :
    Option (List (Nat × Nat)) :=
  procfs_go cpuset lines none []

/-- The cores that appear in the resource with a marker and (subsequent)
value line, under the scan discipline of the parser: a well-formed
`processor` marker whose id is in the tracked set, paired with the next
`cpu MHz`-headed line.  This is the key set the claim describes, kept free
of the parsed values. -/
def pairedCores (cpuset : List Nat) :
    List String → Option Nat → List Nat
  | [], _ => []
  | line :: rest, some id =>
    if (chomp "cpu MHz" line).isSome then id :: pairedCores cpuset rest none
    else pairedCores cpuset rest (some id)
  | line :: rest, none =>
    match markerIdOf line with
    | none => pairedCores cpuset rest none
    | some id =>
        pairedCores cpuset rest (if id ∈ cpuset then some id else none)

/-- From `src/errors.rs` (`ProbeError`).  The `InvalidCpuId` payload is
declared `usize` there, but `validate_cpuset` in `src/probe.rs` constructs
it with `id.to_string()`, the offending token; we model the payload as that
token string, as built at the use site. -/
inductive ProbeError where
  | SysfsError (msg : String)
  | ProcfsError (msg : String)
  | IntConversionError (s : String)
  | InvalidCpuId (token : String)
deriving Repr, DecidableEq

/-- From `src/probe.rs`, the loop of `validate_cpuset`: parse each token,
stopping at the first failure. -/
def validate_go : List String → Finset Nat → Except ProbeError (Finset Nat)
  | [], acc => .ok acc
  | tok :: rest, acc =>
    match parseUsize tok with
    | none => .error (.InvalidCpuId tok)
    | some id => validate_go rest (insert id acc)

/-- Rust `str::split(",")` on the character list: the (possibly empty)
chunks between commas; an empty input yields one empty chunk. -/
def splitCommaChars : List Char → List (List Char)
  | [] => [[]]
  | c :: rest =>
    if c = ',' then [] :: splitCommaChars rest
    else match splitCommaChars rest with
      | t :: ts => (c :: t) :: ts
      | [] => [[c]]

/-- Rust `str::split(",")` as used by `validate_cpuset`. -/
def splitComma (s : String) : List String :=
  (splitCommaChars s.data).map String.mk

/-- From `src/probe.rs`, `validate_cpuset`: split on `","`, parse every
token as `usize`, collect into a set. -/
def validate_cpuset (cpuset : String) : Except ProbeError (Finset Nat) :=
  validate_go (splitComma cpuset) ∅

/-- From `src/main.rs`, `Runner::get_log_header`: the tracked ids (in the
`HashSet`'s arbitrary iteration order), sorted ascending (`Vec::sort`),
each formatted `cpu{id}`. -/
def get_log_header (cpuset : List Nat) : List String :=
  (cpuset.insertionSort (· ≤ ·)).map (fun id => "cpu" ++ toString id)

/-- From `src/main.rs`, the procfs branch of `Runner::log`: one CSV data
row is the map's values, in iteration (key) order, each `to_string()`ed. -/
def procfsLogRow (m : List (Nat × Nat)) : List String :=
  m.map (fun p => toString p.2)

/-- From `src/main.rs`, the procfs `while SystemTime::now() < end` loop of
`Runner::log`: each tick is a wall-clock reading paired with the resource's
lines at that instant; the loop checks the clock, then reads, parses and
writes one row.  `none` models a parse abort; an exhausted tick trace ends
the observation. -/
def logRowsProcfs (cpuset : List Nat) (tEnd : Nat) :
    List (Nat × List String) → Option (List (List String))
  | [] => some []
  | (now, lines) :: rest =>
    if now < tEnd then
      match parse_procfs_cpuinfo cpuset lines with
      | none => none
      | some m =>
          (logRowsProcfs cpuset tEnd rest).map (fun rs => procfsLogRow m :: rs)
    else some []

/-- From `src/main.rs`, `Runner::log` (procfs): the header record is
written first, then the loop's data rows; the deadline is
`SystemTime::now() + Duration::from_millis(duration_ms)` measured once at
loop start. -/
def logOutputProcfs (cpuset : List Nat) (start duration_ms : Nat)
    (ticks : List (Nat × List String)) : Option (List (List String)) :=
  (logRowsProcfs cpuset (start + duration_ms) ticks).map
    (fun rows => get_log_header cpuset :: rows)

/-- From `src/main.rs` lines 141-148 / 166-173 (`Runner::monitor`): read
`now`, and when `now > next`, set `next = now + update_interval` and render.
Returns (rendered this tick?, new deadline). -/
def monitor_display_step (next update_interval now : Nat) : Bool × Nat :=
  if next < now then (true, now + update_interval) else (false, next)

/-! ## Helper lemmas: the running-average state machine -/

theorem M64_eq : M64 = 18446744073709551616 := by norm_num [M64]

theorem feed_append (st : CpuStat) (xs : List Nat) (x : Nat) :
    CpuStat.feed st (xs ++ [x]) = (CpuStat.feed st xs).add_sample x := by
  simp [CpuStat.feed]

theorem add_sample_ws (st : CpuStat) (x : Nat) :
    (st.add_sample x).window_size = st.window_size := by
  by_cases h : st.frequency_samples.length = st.window_size
  · cases hs : st.frequency_samples <;> simp_all [CpuStat.add_sample]
  · simp [CpuStat.add_sample, h]

theorem feed_ws (xs : List Nat) :
    ∀ st : CpuStat, (CpuStat.feed st xs).window_size = st.window_size := by
  induction xs with
  | nil => intro st; rfl
  | cons x rest ih =>
      intro st
      show (CpuStat.feed (st.add_sample x) rest).window_size = st.window_size
      rw [ih, add_sample_ws]

theorem add_sample_samples (st : CpuStat) (x : Nat) :
    (st.add_sample x).frequency_samples =
      (if st.frequency_samples.length = st.window_size
        then st.frequency_samples.tail else st.frequency_samples) ++ [x] := by
  by_cases h : st.frequency_samples.length = st.window_size
  · cases hs : st.frequency_samples <;> simp_all [CpuStat.add_sample]
  · simp [CpuStat.add_sample, h]

theorem add_sample_sum_full (st : CpuStat) (x v : Nat) (rest : List Nat)
    (hs : st.frequency_samples = v :: rest)
    (h : st.frequency_samples.length = st.window_size) :
    (st.add_sample x).sum = ((st.sum + (M64 - v % M64)) % M64 + x) % M64 := by
  simp_all [CpuStat.add_sample]

theorem add_sample_sum_notfull (st : CpuStat) (x : Nat)
    (h : ¬ st.frequency_samples.length = st.window_size) :
    (st.add_sample x).sum = (st.sum + x) % M64 := by
  simp [CpuStat.add_sample, h]

theorem add_sample_sum_empty (st : CpuStat) (x : Nat)
    (hs : st.frequency_samples = [])
    (h : st.frequency_samples.length = st.window_size) :
    (st.add_sample x).sum = (st.sum + x) % M64 := by
  simp_all [CpuStat.add_sample]

/-- The invariant maintained while feeding samples of `u64` range into a
stat of positive capacity `C`. -/
def StatInv (C : Nat) (st : CpuStat) : Prop :=
  st.window_size = C
  ∧ st.sum = st.frequency_samples.sum % M64
  ∧ st.frequency_samples.length ≤ C
  ∧ ∀ v ∈ st.frequency_samples, v < M64

theorem add_sample_inv {C : Nat} (hC : 1 ≤ C) {st : CpuStat} (x : Nat)
    (hx : x < M64) (h : StatInv C st) : StatInv C (st.add_sample x) := by
  obtain ⟨hws, hsum, hlen, hb⟩ := h
  have hsam := add_sample_samples st x
  refine ⟨by rw [add_sample_ws]; exact hws, ?_, ?_, ?_⟩
  · by_cases hfull : st.frequency_samples.length = st.window_size
    · cases hs : st.frequency_samples with
      | nil =>
          rw [add_sample_sum_empty st x hs hfull, hsam, if_pos hfull, hs]
          simp_all
          omega
      | cons v rest =>
          have hv : v < M64 := hb v (by rw [hs]; exact List.mem_cons_self v rest)
          have hsum2 : st.sum = (v + rest.sum) % M64 := by rw [hsum, hs]; simp
          rw [add_sample_sum_full st x v rest hs hfull, hsam, if_pos hfull, hs]
          simp only [List.tail_cons, List.sum_append, List.sum_cons, List.sum_nil]
          rw [M64_eq] at hv hsum2 ⊢
          omega
    · rw [add_sample_sum_notfull st x hfull, hsam, if_neg hfull]
      simp only [List.sum_append, List.sum_cons, List.sum_nil]
      rw [M64_eq] at hsum ⊢
      omega
  · rw [hsam]
    by_cases hfull : st.frequency_samples.length = st.window_size
    · rw [if_pos hfull]
      cases hs : st.frequency_samples with
      | nil => simp_all
      | cons v rest =>
          rw [hs] at hfull
          simp only [List.length_cons] at hfull
          simp only [hs, List.tail_cons, List.length_append, List.length_cons,
            List.length_nil]
          omega
    · rw [if_neg hfull]
      simp only [List.length_append, List.length_cons, List.length_nil]
      omega
  · rw [hsam]
    intro w hw
    rcases List.mem_append.1 hw with hw | hw
    · by_cases hfull : st.frequency_samples.length = st.window_size
      · rw [if_pos hfull] at hw
        exact hb w (List.mem_of_mem_tail hw)
      · rw [if_neg hfull] at hw
        exact hb w hw
    · simp at hw
      omega

theorem feed_inv {C : Nat} (hC : 1 ≤ C) (xs : List Nat)
    (hxs : ∀ x ∈ xs, x < M64) :
    ∀ st : CpuStat, StatInv C st → StatInv C (CpuStat.feed st xs) := by
  induction xs with
  | nil => intro st h; exact h
  | cons x rest ih =>
      intro st h
      show StatInv C (CpuStat.feed (st.add_sample x) rest)
      exact ih (fun y hy => hxs y (List.mem_cons_of_mem x hy)) _
        (add_sample_inv hC x (hxs x (List.mem_cons_self x rest)) h)

theorem new_inv (id C : Nat) : StatInv C (CpuStat.new id C) := by
  refine ⟨rfl, by simp [CpuStat.new], by simp [CpuStat.new], by simp [CpuStat.new]⟩

theorem feed_new_samples (id C : Nat) (hC : 1 ≤ C) (xs : List Nat)
    (hxs : ∀ x ∈ xs, x < M64) :
    (CpuStat.feed (CpuStat.new id C) xs).frequency_samples
      = xs.drop (xs.length - C) := by
  induction xs using List.reverseRecOn with
  | nil => simp [CpuStat.feed, CpuStat.new]
  | append_singleton xs x ih =>
      have hxs1 : ∀ y ∈ xs, y < M64 :=
        fun y hy => hxs y (List.mem_append_left _ hy)
      have ihs := ih hxs1
      have hinv := feed_inv hC xs hxs1 _ (new_inv id C)
      obtain ⟨hws, _, hlen, _⟩ := hinv
      rw [feed_append, add_sample_samples, ihs, hws]
      rw [ihs] at hlen
      by_cases hcase : xs.length < C
      · have h0 : xs.length - C = 0 := by omega
        have h0' : xs.length + 1 - C = 0 := by omega
        rw [h0]
        simp only [List.drop_zero]
        rw [if_neg (by omega), List.length_append]
        simp [h0']
      · have hCle : C ≤ xs.length := by omega
        have hlen2 : (xs.drop (xs.length - C)).length = C := by
          rw [List.length_drop]; omega
        rw [if_pos hlen2, List.tail_drop]
        rw [List.length_append, List.length_singleton,
          List.drop_append_of_le_length (by omega)]
        congr 2
        omega

/-! ## C1: window contents, length bound, and the sum invariant -/

/-- C1 (counterexample): with capacity `2` and samples `[2^63, 2^63]`, the
`u64` field `sum` wraps to `0` while the exact sum of the retained window is
`2^64`, so the internal sum does not equal the exact sum of the retained
values. -/
theorem c1_sum_overflow :
    (CpuStat.feed (CpuStat.new 0 2) [2 ^ 63, 2 ^ 63]).sum ≠
      (CpuStat.feed (CpuStat.new 0 2) [2 ^ 63, 2 ^ 63]).frequency_samples.sum := by
  decide

/-- C1 (amended): feeding any `N` samples of `u64` range into a capacity-`C`
(`C ≥ 1`) stat keeps, at every point, `sum` equal to the sum of the retained
window **modulo `2^64`** (Rust `u64` wrapping), keeps the window length at
most `C`, leaves exactly the last `min(N, C)` values fed, oldest first, and
`sum` equals the exact retained sum whenever that sum is below `2^64`. -/
theorem c1_window_sum (id C : Nat) (xs : List Nat) (hC : 1 ≤ C)
    (hxs : ∀ x ∈ xs, x < M64) :
    (CpuStat.feed (CpuStat.new id C) xs).frequency_samples
        = xs.drop (xs.length - min xs.length C)
    ∧ (∀ k, (CpuStat.feed (CpuStat.new id C) (xs.take k)).sum
        = (CpuStat.feed (CpuStat.new id C) (xs.take k)).frequency_samples.sum % M64)
    ∧ (∀ k, (CpuStat.feed (CpuStat.new id C) (xs.take k)).frequency_samples.length ≤ C)
    ∧ ((CpuStat.feed (CpuStat.new id C) xs).frequency_samples.sum < M64 →
        (CpuStat.feed (CpuStat.new id C) xs).sum
          = (CpuStat.feed (CpuStat.new id C) xs).frequency_samples.sum) := by
  have htake : ∀ k : Nat, ∀ x ∈ xs.take k, x < M64 :=
    fun k x hx => hxs x (List.take_subset k xs hx)
  have hinvk : ∀ k : Nat, StatInv C (CpuStat.feed (CpuStat.new id C) (xs.take k)) :=
    fun k => feed_inv hC (xs.take k) (htake k) _ (new_inv id C)
  have hinv : StatInv C (CpuStat.feed (CpuStat.new id C) xs) :=
    feed_inv hC xs hxs _ (new_inv id C)
  refine ⟨?_, fun k => (hinvk k).2.1, fun k => (hinvk k).2.2.1, fun hlt => ?_⟩
  · rw [feed_new_samples id C hC xs hxs]
    congr 1
    omega
  · rw [hinv.2.1]
    exact Nat.mod_eq_of_lt hlt

/-- C1 witness. -/
theorem c1_window_sum_w :
    (CpuStat.feed (CpuStat.new 0 2) [1, 2, 3]).frequency_samples = [2, 3] := by
  have h := (c1_window_sum 0 2 [1, 2, 3] (by decide) (by decide)).1
  simpa using h

/-! ## C2: unit consistency between the two interfaces -/

/-- C2 (code-bug evidence): at the same physical frequency 2500.125 MHz the
per-core (sysfs) path stores `2500125 * KILO = 2500125000` (Hz) while the
aggregate (procfs) path stores `2500125` (kHz): the samples are not equal,
and `sample / 1_000_000` (`avg_mhz`) yields 2500.125 MHz for the sysfs stat
but 2.500125 for the procfs stat, contradicting the `MHz` display label. -/
theorem c2_unit_mismatch :
    sysfs_sample 2500125 = 2500125000
    ∧ parse_procfs_cpuinfo [0] ["processor\t: 0", "cpu MHz\t\t: 2500.125"]
        = some [(0, 2500125)]
    ∧ (2500125000 : Nat) ≠ 2500125
    ∧ (CpuStat.feed (CpuStat.new 0 1) [sysfs_sample 2500125]).avg_mhz
        = some ((2500125 : ℚ) / 1000)
    ∧ (CpuStat.feed (CpuStat.new 0 1) [2500125]).avg_mhz
        = some ((2500125 : ℚ) / 1000000) := by
  have h1 : (CpuStat.feed (CpuStat.new 0 1) [sysfs_sample 2500125]).sum
      = 2500125000 := by decide
  have h2 : (CpuStat.feed (CpuStat.new 0 1) [sysfs_sample 2500125]).frequency_samples
      = [2500125000] := by decide
  have h3 : (CpuStat.feed (CpuStat.new 0 1) [2500125]).sum = 2500125 := by decide
  have h4 : (CpuStat.feed (CpuStat.new 0 1) [2500125]).frequency_samples
      = [2500125] := by decide
  refine ⟨by decide, by decide, by decide, ?_, ?_⟩
  · rw [CpuStat.avg_mhz, CpuStat.mean, h1, h2]
    norm_num [f64div]
  · rw [CpuStat.avg_mhz, CpuStat.mean, h3, h4]
    norm_num [f64div]

/-! ## C3: mean on an empty window -/

/-- C3 (counterexample): on a freshly constructed stat, `mean()` is not
rejected: it is computed as `0.0 / 0.0` and silently yields NaN (`none` in
the finite-or-not model of `f64`). -/
theorem c3_mean_empty_nan :
    CpuStat.mean (CpuStat.new 0 10000) = none := by decide

/-- C3 (amended): `mean()` on an empty window is silently computed as
`0.0 / 0.0`, yielding NaN, not a defined error; after feeding `k ≥ 1`
samples (within capacity, sums in `u64` range) it equals `sum / k`. -/
theorem c3_mean (id C : Nat) :
    CpuStat.mean (CpuStat.new id C) = none
    ∧ ∀ xs : List Nat, xs ≠ [] → xs.length ≤ C → 1 ≤ C →
        (∀ x ∈ xs, x < M64) → xs.sum < M64 →
        CpuStat.mean (CpuStat.feed (CpuStat.new id C) xs)
          = some ((xs.sum : ℚ) / (xs.length : ℚ)) := by
  constructor
  · rfl
  · intro xs hne hlen hC hb hsumlt
    have hsam : (CpuStat.feed (CpuStat.new id C) xs).frequency_samples = xs := by
      rw [feed_new_samples id C hC xs hb]
      have h0 : xs.length - C = 0 := by omega
      rw [h0, List.drop_zero]
    have hinv := feed_inv hC xs hb _ (new_inv id C)
    have hsum : (CpuStat.feed (CpuStat.new id C) xs).sum = xs.sum := by
      rw [hinv.2.1, hsam, Nat.mod_eq_of_lt hsumlt]
    have hlen0 : ((xs.length : ℚ)) ≠ 0 := by
      simp only [ne_eq, Nat.cast_eq_zero, List.length_eq_zero]
      exact hne
    rw [CpuStat.mean, hsam, hsum]
    unfold f64div
    rw [if_neg hlen0]

/-- C3 witness. -/
theorem c3_mean_w :
    CpuStat.mean (CpuStat.feed (CpuStat.new 0 3) [100, 200])
      = some ((([100, 200] : List Nat).sum : ℚ)
          / (([100, 200] : List Nat).length : ℚ)) :=
  (c3_mean 0 3).2 [100, 200] (by decide) (by decide) (by decide) (by decide)
    (by decide)

/-! ## C4: construction with capacity zero -/

theorem add_sample_ws0_len (st : CpuStat) (x : Nat) (h : st.window_size = 0) :
    (st.add_sample x).frequency_samples.length
      = st.frequency_samples.length + 1 := by
  rw [add_sample_samples]
  by_cases hfull : st.frequency_samples.length = st.window_size
  · cases hs : st.frequency_samples with
    | nil => simp
    | cons v rest =>
        rw [hs] at hfull
        rw [h] at hfull
        simp at hfull
  · rw [if_neg hfull]
    simp

theorem feed_ws0_len (xs : List Nat) :
    ∀ st : CpuStat, st.window_size = 0 →
      (CpuStat.feed st xs).frequency_samples.length
        = st.frequency_samples.length + xs.length := by
  induction xs with
  | nil => intro st h; simp [CpuStat.feed]
  | cons x rest ih =>
      intro st h
      show (CpuStat.feed (st.add_sample x) rest).frequency_samples.length = _
      rw [ih _ (by rw [add_sample_ws]; exact h), add_sample_ws0_len st x h]
      simp
      omega

/-- C4 (counterexample): `CpuStat::new` has no failure path: at capacity
`0` it succeeds and returns the stat (no validation is performed). -/
theorem c4_new_zero_capacity :
    CpuStat.new 7 0
      = { id := 7, window_size := 0, frequency_samples := [], sum := 0 } := rfl

/-- C4 (amended): `new(id, capacity)` always succeeds, for capacity `0` as
well; a capacity-`0` stat then retains every sample fed to it, so its
window grows without bound. -/
theorem c4_new_never_fails (id c : Nat) (xs : List Nat) :
    (CpuStat.new id c).window_size = c
    ∧ (CpuStat.new id c).frequency_samples = []
    ∧ (CpuStat.feed (CpuStat.new id 0) xs).frequency_samples.length = xs.length := by
  refine ⟨rfl, rfl, ?_⟩
  rw [feed_ws0_len xs _ rfl]
  simp [CpuStat.new]

/-! ## C5: aggregate-source conversion round trip -/

/-- C5: parsing the value line `"cpu MHz : 2500.125"` for tracked core `0`
yields the raw integer sample `2500125` (the decimal MHz value multiplied
by 1000 and truncated). -/
theorem c5_aggregate_round_trip :
    parse_procfs_cpuinfo [0] ["processor : 0", "cpu MHz : 2500.125"]
      = some [(0, 2500125)] := by decide

/-! ## Bridge: the integer procfs sample equals the truncated rational -/

theorem procfs_sample_toRat (d : Decimal) :
    procfs_sample d = f64toU64 (d.toRat * 1000) := by
  have hpow : (0 : ℚ) < (10 ^ d.fracLen : ℚ) := by positivity
  have hnn : (0 : ℚ) ≤ d.toRat * 1000 := by
    have h2 : (0 : ℚ) ≤ (d.fracPart : ℚ) / (10 ^ d.fracLen : ℚ) := by positivity
    have h1 : (0 : ℚ) ≤ d.toRat := by
      rw [Decimal.toRat]
      have := Nat.cast_nonneg (α := ℚ) d.intPart
      linarith
    linarith
  rw [f64toU64, if_neg (by linarith)]
  have key : d.toRat * 1000
      = (((d.intPart * 10 ^ d.fracLen + d.fracPart) * 1000 : ℕ) : ℚ)
        / ((10 ^ d.fracLen : ℕ) : ℚ) := by
    rw [Decimal.toRat]
    push_cast
    field_simp
  rw [procfs_sample, key]
  congr 1
  rw [Int.floor_toNat, Nat.floor_div_nat, Nat.floor_natCast]

/-! ## C6: which cores one aggregate poll reports -/

theorem insertSorted_key_mem (k v i : Nat) (l : List (Nat × Nat)) :
    (∃ w, (i, w) ∈ insertSorted k v l) ↔ i = k ∨ ∃ w, (i, w) ∈ l := by
  induction l with
  | nil => simp [insertSorted]
  | cons p rest ih =>
      obtain ⟨a, b⟩ := p
      by_cases h1 : k < a
      · rw [insertSorted, if_pos h1]
        simp only [List.mem_cons, Prod.mk.injEq, exists_or, exists_eq_right_right,
          exists_eq_right]
      · by_cases h2 : k = a
        · rw [insertSorted, if_neg h1, if_pos h2]
          subst h2
          simp only [List.mem_cons, Prod.mk.injEq, exists_or, exists_eq_right_right,
            exists_eq_right]
          tauto
        · rw [insertSorted, if_neg h1, if_neg h2]
          simp only [List.mem_cons, Prod.mk.injEq, exists_or, exists_eq_right_right,
            exists_eq_right] at ih ⊢
          rw [ih]
          tauto

theorem pairedCores_mem (S : List Nat) (lines : List String) :
    ∀ (cur : Option Nat) (i : Nat),
      (∀ j, cur = some j → j ∈ S) → i ∈ pairedCores S lines cur →
      i ∈ S ∧ (cur = some i ∨ ∃ l ∈ lines, markerIdOf l = some i) := by
  induction lines with
  | nil => intro cur i _ hi; simp [pairedCores] at hi
  | cons line rest ih =>
      intro cur i hcur hi
      cases cur with
      | some id =>
          by_cases hv : (chomp "cpu MHz" line).isSome = true
          · simp only [pairedCores, hv, if_true, List.mem_cons] at hi
            rcases hi with rfl | hi
            · exact ⟨hcur i rfl, Or.inl rfl⟩
            · obtain ⟨hiS, hor⟩ := ih none i (fun j hj => nomatch hj) hi
              rcases hor with hc | ⟨l, hl, hml⟩
              · cases hc
              · exact ⟨hiS, Or.inr ⟨l, List.mem_cons_of_mem _ hl, hml⟩⟩
          · simp only [pairedCores, hv, if_false] at hi
            obtain ⟨hiS, hor⟩ := ih (some id) i hcur hi
            rcases hor with hc | ⟨l, hl, hml⟩
            · exact ⟨hiS, Or.inl hc⟩
            · exact ⟨hiS, Or.inr ⟨l, List.mem_cons_of_mem _ hl, hml⟩⟩
      | none =>
          cases hm : markerIdOf line with
          | none =>
              simp only [pairedCores, hm] at hi
              obtain ⟨hiS, hor⟩ := ih none i (fun j hj => nomatch hj) hi
              rcases hor with hc | ⟨l, hl, hml⟩
              · cases hc
              · exact ⟨hiS, Or.inr ⟨l, List.mem_cons_of_mem _ hl, hml⟩⟩
          | some id =>
              simp only [pairedCores, hm] at hi
              have hcur2 : ∀ j, (if id ∈ S then some id else none) = some j → j ∈ S := by
                intro j hj
                by_cases hS : id ∈ S
                · rw [if_pos hS] at hj; cases hj; exact hS
                · rw [if_neg hS] at hj; cases hj
              obtain ⟨hiS, hor⟩ := ih _ i hcur2 hi
              refine ⟨hiS, ?_⟩
              rcases hor with hc | ⟨l, hl, hml⟩
              · by_cases hS : id ∈ S
                · rw [if_pos hS] at hc
                  cases hc
                  exact Or.inr ⟨line, List.mem_cons_self line rest, hm⟩
                · rw [if_neg hS] at hc; cases hc
              · exact Or.inr ⟨l, List.mem_cons_of_mem _ hl, hml⟩

theorem procfs_go_keys (S : List Nat) (lines : List String) :
    ∀ (cur : Option Nat) (acc m : List (Nat × Nat)),
      procfs_go S lines cur acc = some m →
      ∀ i, ((∃ v, (i, v) ∈ m) ↔ (∃ v, (i, v) ∈ acc) ∨ i ∈ pairedCores S lines cur) := by
  induction lines with
  | nil =>
      intro cur acc m h i
      simp only [procfs_go, Option.some.injEq] at h
      subst h
      simp [pairedCores]
  | cons line rest ih =>
      intro cur acc m h i
      cases cur with
      | some id =>
          cases hv : chomp "cpu MHz" line with
          | none =>
              simp only [procfs_go, hv] at h
              rw [ih (some id) acc m h i]
              simp [pairedCores, hv]
          | some r =>
              cases hc : chomp ":" (trimStart r) with
              | none => simp [procfs_go, hv, hc] at h
              | some r2 =>
                  cases hd : parseDecimal (trimStart r2) with
                  | none => simp [procfs_go, hv, hc, hd] at h
                  | some dec =>
                      simp only [procfs_go, hv, hc, hd] at h
                      rw [ih none _ m h i, insertSorted_key_mem]
                      simp only [pairedCores, hv, Option.isSome_some, if_true,
                        List.mem_cons]
                      tauto
      | none =>
          cases hp : chomp "processor" line with
          | none =>
              simp only [procfs_go, hp] at h
              have hm : markerIdOf line = none := by simp [markerIdOf, hp]
              rw [ih none acc m h i]
              simp [pairedCores, hm]
          | some r =>
              cases hc : chomp ":" (trimStart r) with
              | none => simp [procfs_go, hp, hc] at h
              | some r2 =>
                  cases hu : parseUsize (trimStart r2) with
                  | none => simp [procfs_go, hp, hc, hu] at h
                  | some id =>
                      simp only [procfs_go, hp, hc, hu] at h
                      have hm : markerIdOf line = some id := by
                        simp [markerIdOf, hp, hc, hu]
                      rw [ih _ acc m h i]
                      simp [pairedCores, hm]

/-- C6: the mapping one aggregate poll returns has as keys exactly the
tracked cores that the scan pairs with a marker and value line; anything it
maps is a tracked core with a marker line in the resource, so untracked
cores are ignored and tracked cores absent from the resource are omitted
(never mapped to zero). -/
theorem c6_procfs_keys (S : List Nat) (lines : List String)
    (m : List (Nat × Nat)) (h : parse_procfs_cpuinfo S lines = some m) :
    (∀ i, (∃ v, (i, v) ∈ m) ↔ i ∈ pairedCores S lines none)
    ∧ (∀ i v, (i, v) ∈ m → i ∈ S)
    ∧ (∀ i, i ∈ S → (∀ l ∈ lines, markerIdOf l ≠ some i) → ∀ v, (i, v) ∉ m) := by
  have hkeys := procfs_go_keys S lines none [] m h
  have hiff : ∀ i, (∃ v, (i, v) ∈ m) ↔ i ∈ pairedCores S lines none := by
    intro i
    rw [hkeys i]
    simp
  refine ⟨hiff, ?_, ?_⟩
  · intro i v hv
    exact (pairedCores_mem S lines none i (fun j hj => nomatch hj)
      ((hiff i).1 ⟨v, hv⟩)).1
  · intro i _ hno v hv
    rcases (pairedCores_mem S lines none i (fun j hj => nomatch hj)
        ((hiff i).1 ⟨v, hv⟩)).2 with hc | ⟨l, hl, hml⟩
    · cases hc
    · exact hno l hl hml

/-- C6 witness: with tracked set `{0, 5}`, polling a resource that lists
cores `0` and `1` never reports core `5`. -/
theorem c6_procfs_keys_w :
    ((5 : Nat), (0 : Nat)) ∉ ([((0 : Nat), (100500 : Nat))] : List (Nat × Nat)) :=
  (c6_procfs_keys [0, 5]
      ["processor : 0", "cpu MHz : 100.5", "processor : 1", "cpu MHz : 200.0"]
      [(0, 100500)] (by decide)).2.2 5 (by decide) (by decide) 0

/-! ## C7: cpuset validation -/

theorem validate_go_ok (l : List String) :
    ∀ acc : Finset Nat, (∀ t ∈ l, (parseUsize t).isSome) →
      ∃ A, validate_go l acc = .ok A ∧
        ∀ i, i ∈ A ↔ i ∈ acc ∨ ∃ t ∈ l, parseUsize t = some i := by
  induction l with
  | nil =>
      intro acc _
      refine ⟨acc, rfl, ?_⟩
      simp
  | cons tok rest ih =>
      intro acc hall
      obtain ⟨id, hid⟩ :=
        Option.isSome_iff_exists.1 (hall tok (List.mem_cons_self tok rest))
      obtain ⟨A, hA, hmem⟩ :=
        ih (insert id acc) (fun t ht => hall t (List.mem_cons_of_mem _ ht))
      refine ⟨A, by simp only [validate_go, hid]; exact hA, ?_⟩
      intro i
      rw [hmem i, Finset.mem_insert]
      constructor
      · rintro ((rfl | hacc) | ⟨t, ht, hpt⟩)
        · exact Or.inr ⟨tok, List.mem_cons_self tok rest, hid⟩
        · exact Or.inl hacc
        · exact Or.inr ⟨t, List.mem_cons_of_mem _ ht, hpt⟩
      · rintro (hacc | ⟨t, ht, hpt⟩)
        · exact Or.inl (Or.inr hacc)
        · rcases List.mem_cons.1 ht with rfl | ht
          · rw [hid] at hpt
            cases hpt
            exact Or.inl (Or.inl rfl)
          · exact Or.inr ⟨t, ht, hpt⟩

theorem validate_go_err (l : List String) :
    ∀ (acc : Finset Nat) (t : String),
      l.find? (fun t => (parseUsize t).isNone) = some t →
      validate_go l acc = .error (.InvalidCpuId t) := by
  induction l with
  | nil => intro acc t h; simp [List.find?] at h
  | cons tok rest ih =>
      intro acc t h
      cases hp : parseUsize tok with
      | none =>
          rw [List.find?_cons_of_pos _ (by simp [hp])] at h
          cases h
          simp [validate_go, hp]
      | some id =>
          rw [List.find?_cons_of_neg _ (by simp [hp])] at h
          simp only [validate_go, hp]
          exact ih _ t h

/-- C7: `validate_cpuset` parses the comma-delimited input; when every
token parses as a `usize` it returns the deduplicated set of ids (so
`"0,2,2,5"` yields `{0, 2, 5}`), and when some token does not it fails with
`InvalidCpuId` naming the first offending token (so `"0,x,5"` fails naming
`"x"`). -/
theorem c7_validate (s : String) :
    ((∀ t ∈ splitComma s, (parseUsize t).isSome) →
       ∃ A, validate_cpuset s = .ok A ∧
         ∀ i, i ∈ A ↔ ∃ t ∈ splitComma s, parseUsize t = some i)
    ∧ (∀ t, (splitComma s).find? (fun t => (parseUsize t).isNone) = some t →
        validate_cpuset s = .error (.InvalidCpuId t))
    ∧ validate_cpuset "0,2,2,5" = .ok {0, 2, 5}
    ∧ validate_cpuset "0,x,5" = .error (.InvalidCpuId "x") := by
  have hok : validate_cpuset "0,2,2,5"
      = .ok (insert 5 (insert 2 (insert 2 (insert 0 (∅ : Finset ℕ))))) := rfl
  refine ⟨?_, ?_, by rw [hok]; congr 1; decide, rfl⟩
  · intro hall
    obtain ⟨A, hA, hmem⟩ := validate_go_ok (splitComma s) ∅ hall
    refine ⟨A, hA, fun i => ?_⟩
    rw [hmem i]
    simp
  · intro t ht
    exact validate_go_err (splitComma s) ∅ t ht

/-- C7 witness. -/
theorem c7_validate_w :
    validate_cpuset "1,y" = .error (.InvalidCpuId "y") :=
  (c7_validate "1,y").2.1 "y" (by decide)

/-! ## C8: log-mode header and the zero-duration run -/

/-- C8: in (procfs) log mode the first record of any successful run is the
header of `cpu{N}` names for the tracked ids sorted ascending, before any
data row; with duration `0` and the first wall-clock reading at or past the
start instant, the run terminates with exactly the header and no data
rows. -/
theorem c8_log_header (S : List Nat) (start d : Nat)
    (ticks : List (Nat × List String)) (out : List (List String))
    (h : logOutputProcfs S start d ticks = some out) :
    out.head? = some (get_log_header S)
    ∧ get_log_header S
        = (S.insertionSort (· ≤ ·)).map (fun id => "cpu" ++ toString id)
    ∧ List.Sorted (· ≤ ·) (S.insertionSort (· ≤ ·))
    ∧ (S.Nodup → List.Pairwise (· < ·) (S.insertionSort (· ≤ ·)))
    ∧ (d = 0 → (∀ p ∈ ticks.head?, start ≤ p.1) → out = [get_log_header S]) := by
  obtain ⟨rows, hrows, hout⟩ : ∃ rows,
      logRowsProcfs S (start + d) ticks = some rows
      ∧ out = get_log_header S :: rows := by
    unfold logOutputProcfs at h
    cases hr : logRowsProcfs S (start + d) ticks with
    | none => rw [hr] at h; cases h
    | some rows =>
        rw [hr] at h
        cases h
        exact ⟨rows, rfl, rfl⟩
  subst hout
  refine ⟨rfl, rfl, List.sorted_insertionSort _ _, ?_, ?_⟩
  · intro hnd
    exact (List.sorted_insertionSort _ S).lt_of_le
      (((List.perm_insertionSort _ S).nodup_iff).2 hnd)
  · intro hd hstart
    subst hd
    cases ticks with
    | nil =>
        simp only [logRowsProcfs, Option.some.injEq] at hrows
        rw [← hrows]
    | cons p rest =>
        obtain ⟨now, lines⟩ := p
        have hge : start ≤ now := hstart (now, lines) (by simp)
        simp only [logRowsProcfs, if_neg (by omega : ¬ now < start + 0),
          Option.some.injEq] at hrows
        rw [← hrows]

/-- C8 witness: duration 0, one tick already scheduled at the start
instant: the output is exactly the (sorted) header row. -/
theorem c8_log_header_w :
    ([["cpu0", "cpu1"]] : List (List String)) = [get_log_header [1, 0]] :=
  (c8_log_header [1, 0] 5 0 [(5, ["junk"])] [["cpu0", "cpu1"]]
      (by decide)).2.2.2.2 rfl (by decide)

/-! ## C9: monitor-mode render scheduling -/

/-- C9: a monitor tick renders exactly when `now` has passed the scheduled
deadline; on a render the next deadline is `now + update_interval`
(rescheduled from now, not from the missed deadline), and any following
tick at or before that new deadline does not render — no catch-up burst. -/
theorem c9_monitor_sched (next interval now : Nat) :
    ((monitor_display_step next interval now).1 = true ↔ next < now)
    ∧ (next < now → monitor_display_step next interval now = (true, now + interval))
    ∧ (¬ next < now → monitor_display_step next interval now = (false, next))
    ∧ (∀ later, next < now → later ≤ now + interval →
        (monitor_display_step (monitor_display_step next interval now).2
          interval later).1 = false) := by
  refine ⟨?_, ?_, ?_, ?_⟩
  · by_cases h : next < now <;> simp [monitor_display_step, h]
  · intro h; simp [monitor_display_step, h]
  · intro h; simp [monitor_display_step, h]
  · intro later h hle
    have hstep : (monitor_display_step next interval now).2 = now + interval := by
      simp [monitor_display_step, h]
    rw [hstep]
    simp only [monitor_display_step]
    rw [if_neg (by omega : ¬ now + interval < later)]

/-- C9 witness: a tick arriving far past the deadline renders once and the
next tick inside the new window does not render. -/
theorem c9_monitor_sched_w :
    (monitor_display_step (monitor_display_step 5 10 100).2 10 105).1 = false :=
  (c9_monitor_sched 5 10 100).2.2.2 105 (by decide) (by decide)

/-! ## C10: aggregate log rows are in ascending core order -/

theorem insertSorted_mem_cases (k v : Nat) (l : List (Nat × Nat)) :
    ∀ p ∈ insertSorted k v l, p = (k, v) ∨ p ∈ l := by
  induction l with
  | nil => simp [insertSorted]
  | cons q rest ih =>
      obtain ⟨a, b⟩ := q
      intro p hp
      by_cases h1 : k < a
      · rw [insertSorted, if_pos h1] at hp
        rcases List.mem_cons.1 hp with rfl | hp
        · exact Or.inl rfl
        · exact Or.inr hp
      · by_cases h2 : k = a
        · rw [insertSorted, if_neg h1, if_pos h2] at hp
          rcases List.mem_cons.1 hp with rfl | hp
          · exact Or.inl rfl
          · exact Or.inr (List.mem_cons_of_mem _ hp)
        · rw [insertSorted, if_neg h1, if_neg h2] at hp
          rcases List.mem_cons.1 hp with rfl | hp
          · exact Or.inr (List.mem_cons_self _ _)
          · rcases ih p hp with rfl | hp
            · exact Or.inl rfl
            · exact Or.inr (List.mem_cons_of_mem _ hp)

theorem insertSorted_pairwise (k v : Nat) (l : List (Nat × Nat))
    (h : List.Pairwise (fun p q => p.1 < q.1) l) :
    List.Pairwise (fun p q => p.1 < q.1) (insertSorted k v l) := by
  induction l with
  | nil => simp [insertSorted]
  | cons p rest ih =>
      obtain ⟨a, b⟩ := p
      rw [List.pairwise_cons] at h
      obtain ⟨hrel, hrest⟩ := h
      by_cases h1 : k < a
      · rw [insertSorted, if_pos h1]
        refine List.Pairwise.cons ?_ (List.Pairwise.cons hrel hrest)
        intro q hq
        rcases List.mem_cons.1 hq with rfl | hq
        · exact h1
        · exact lt_trans h1 (hrel q hq)
      · by_cases h2 : k = a
        · rw [insertSorted, if_neg h1, if_pos h2]
          subst h2
          exact List.Pairwise.cons hrel hrest
        · rw [insertSorted, if_neg h1, if_neg h2]
          refine List.Pairwise.cons ?_ (ih hrest)
          intro q hq
          rcases insertSorted_mem_cases k v rest q hq with rfl | hq
          · simpa using by omega
          · exact hrel q hq

theorem procfs_go_pairwise (S : List Nat) (lines : List String) :
    ∀ (cur : Option Nat) (acc m : List (Nat × Nat)),
      List.Pairwise (fun p q : Nat × Nat => p.1 < q.1) acc →
      procfs_go S lines cur acc = some m →
      List.Pairwise (fun p q : Nat × Nat => p.1 < q.1) m := by
  induction lines with
  | nil =>
      intro cur acc m hacc h
      simp only [procfs_go, Option.some.injEq] at h
      subst h
      exact hacc
  | cons line rest ih =>
      intro cur acc m hacc h
      cases cur with
      | some id =>
          cases hv : chomp "cpu MHz" line with
          | none =>
              simp only [procfs_go, hv] at h
              exact ih (some id) acc m hacc h
          | some r =>
              cases hc : chomp ":" (trimStart r) with
              | none => simp [procfs_go, hv, hc] at h
              | some r2 =>
                  cases hd : parseDecimal (trimStart r2) with
                  | none => simp [procfs_go, hv, hc, hd] at h
                  | some dec =>
                      simp only [procfs_go, hv, hc, hd] at h
                      exact ih none _ m (insertSorted_pairwise _ _ acc hacc) h
      | none =>
          cases hp : chomp "processor" line with
          | none =>
              simp only [procfs_go, hp] at h
              exact ih none acc m hacc h
          | some r =>
              cases hc : chomp ":" (trimStart r) with
              | none => simp [procfs_go, hp, hc] at h
              | some r2 =>
                  cases hu : parseUsize (trimStart r2) with
                  | none => simp [procfs_go, hp, hc, hu] at h
                  | some id =>
                      simp only [procfs_go, hp, hc, hu] at h
                      exact ih _ acc m hacc h

/-- C10: one aggregate poll's result is an ordered map — its keys are
strictly ascending — and the CSV data row `Runner::log` emits from it lists
the values in exactly that key order. -/
theorem c10_procfs_row_order (S : List Nat) (lines : List String)
    (m : List (Nat × Nat)) (h : parse_procfs_cpuinfo S lines = some m) :
    List.Pairwise (fun p q : Nat × Nat => p.1 < q.1) m
    ∧ procfsLogRow m = m.map (fun p => toString p.2) :=
  ⟨procfs_go_pairwise S lines none [] m List.Pairwise.nil h, rfl⟩

/-- C10 witness: even with the tracked set listed out of order, the poll
result is key-sorted. -/
theorem c10_procfs_row_order_w :
    List.Pairwise (fun p q : Nat × Nat => p.1 < q.1)
      [(0, 100000), (2, 200500)] :=
  (c10_procfs_row_order [2, 0]
      ["processor : 0", "cpu MHz : 100.0", "processor : 2", "cpu MHz : 200.5"]
      [(0, 100000), (2, 200500)] (by decide)).1
